import Mathlib

/-!
# Verification of `scripts/create_icons.py`

Shallow embedding of the icon-generation script: the rasterizer
(`create_base_icon`), the Apple-style ICNS packer (`create_icns`), the
Windows-style ICO packer (`create_ico`), and the driver glue, together with
proofs of the specified properties.

Modelling conventions:
* Python byte strings are `List Nat`, each entry a byte value.
* Python `struct.pack('>I', n)` raises `struct.error` when `n` is out of the
  32-bit range; it is embedded as an `Option`-returning function.
* `str.encode('ascii')` raises on non-ASCII characters; likewise `Option`.
* Pixels are records of four `Nat` channels; a bitmap is a list of rows.
* The imaging library primitives (`Image.new`, `ImageDraw.ellipse` /
  `line` / `rectangle`, PNG and ICO serialization) are not part of this
  repository; they are modelled from the spec where so marked, as
  dimension-preserving per-pixel region fills and a lossless serialization.
* Python float arithmetic in the rasterizer is modelled exactly over `ℚ`
  (the gradient's `int(255 * (1 - i/10))` truncation was checked against
  IEEE double semantics for every loop index `i < 10`; both equal
  `255 * (10 - i) / 10` in integer division).
-/

/-! ## Configuration constants (lines 12-15 of the script) -/

def GRADIENT_ITERATIONS : Nat := 10

def DEFAULT_ICON_SIZE : Nat := 512

def BRAND_COLOR : Nat × Nat × Nat := (0, 212, 255)

/-! ## Byte-level helpers -/

/-- Four big-endian bytes of `n` (the value modulo `2^32`). -/
def be32 (n : Nat) : List Nat :=
  [n / 2 ^ 24 % 256, n / 2 ^ 16 % 256, n / 2 ^ 8 % 256, n % 256]

/-- `struct.pack('>I', n)`: errors when `n` does not fit an unsigned
32-bit integer, otherwise the four big-endian bytes. -/
def pack_be32 (n : Nat) : Option (List Nat) :=
  if n < 2 ^ 32 then some (be32 n) else none

/-- Read a 4-byte big-endian integer from the head of a byte list
(0 when the list is too short). -/
def readBe32 : List Nat → Nat
  | a :: b :: c :: d :: _ => ((a * 256 + b) * 256 + c) * 256 + d
  | _ => 0

/-- The code points of a string's characters. -/
def asciiBytes (s : String) : List Nat := s.toList.map Char.toNat

/-- `str.encode('ascii')`: errors when any character is outside ASCII. -/
def encodeAscii (s : String) : Option (List Nat) :=
  if s.toList.all (fun c => c.toNat < 128) then some (asciiBytes s) else none

/-! ## Bitmaps -/

/-- One pixel: four 8-bit channels (the type allows any `Nat`; the script
only ever writes channel values below 256). -/
structure RGBA where
  r : Nat
  g : Nat
  b : Nat
  a : Nat
deriving DecidableEq, Repr

/-- A square pixel grid: `pixels` is a list of `size` rows of `size`
pixels each (the shape is proved, not imposed by the type). -/
structure Bitmap where
  size : Nat
  pixels : List (List RGBA)
deriving DecidableEq, Repr

/-- Map a function over a list together with the index of each element,
starting from index `i`. -/
def mapWithIndex (f : Nat → α → β) : List α → Nat → List β
  | [], _ => []
  | a :: l, i => f i a :: mapWithIndex f l (i + 1)

/-- Apply a per-pixel update `f x y pixel` to every pixel of a bitmap.
All drawing primitives are instances of this, so they preserve the grid
shape by construction — matching the imaging library, where drawing never
resizes an image. -/
def mapPixels (f : Nat → Nat → RGBA → RGBA) (bm : Bitmap) : Bitmap :=
  ⟨bm.size, mapWithIndex (fun y row => mapWithIndex (fun x p => f x y p) row 0) bm.pixels 0⟩

/-- Modelled from the spec: `PIL.Image.new('RGBA', (size, size), (0,0,0,0))`
is not in this repository; per the spec's data model it yields a
`size × size` grid of fully transparent pixels. -/
def imageNew (size : Nat) : Bitmap :=
  ⟨size, List.replicate size (List.replicate size ⟨0, 0, 0, 0⟩)⟩

/-! ## Drawing primitives

Modelled from the spec: `PIL.ImageDraw`'s `ellipse`, `rectangle` and
`line` are library code, not in this repository.  The spec treats the
rasterizer as cosmetic ("excluded from detailed spec") and only requires
that drawing fills pixels of the existing grid; each primitive is
modelled as a region fill over the grid. -/

/-- Pixel `(x, y)` lies in the ellipse inscribed in the box
`[x0, y0, x1, y1]` (both corners included, as in PIL). -/
def inEllipse (x0 y0 x1 y1 x y : Int) : Bool :=
  (2 * x - (x0 + x1)) ^ 2 * (y1 - y0) ^ 2 + (2 * y - (y0 + y1)) ^ 2 * (x1 - x0) ^ 2
    ≤ (x1 - x0) ^ 2 * (y1 - y0) ^ 2

/-- `draw.ellipse([x0, y0, x1, y1], fill = c)`. -/
def drawEllipse (x0 y0 x1 y1 : Int) (c : RGBA) (bm : Bitmap) : Bitmap :=
  mapPixels (fun x y p => if inEllipse x0 y0 x1 y1 (x : Int) (y : Int) then c else p) bm

/-- `draw.rectangle([x0, y0, x1, y1], fill = c)` (both corners included). -/
def drawRect (x0 y0 x1 y1 : Int) (c : RGBA) (bm : Bitmap) : Bitmap :=
  mapPixels (fun x y p =>
    if x0 ≤ (x : Int) ∧ (x : Int) ≤ x1 ∧ y0 ≤ (y : Int) ∧ (y : Int) ≤ y1 then c else p) bm

/-- Squared distance from point `p` to the segment `a`-`b` (rational
coordinates; the parameter of the closest point is clamped to `[0, 1]`). -/
def sqSegDist (a b p : ℚ × ℚ) : ℚ :=
  let dx := b.1 - a.1
  let dy := b.2 - a.2
  let dd := dx * dx + dy * dy
  if dd = 0 then (p.1 - a.1) ^ 2 + (p.2 - a.2) ^ 2
  else
    let t := max 0 (min 1 (((p.1 - a.1) * dx + (p.2 - a.2) * dy) / dd))
    (p.1 - (a.1 + t * dx)) ^ 2 + (p.2 - (a.2 + t * dy)) ^ 2

/-- `draw.line([a, b], fill = c, width = w)`: fills the pixels within
distance `w / 2` of the segment. -/
def drawLine (a b : ℚ × ℚ) (w : Int) (c : RGBA) (bm : Bitmap) : Bitmap :=
  mapPixels (fun x y p =>
    if sqSegDist a b ((x : ℚ), (y : ℚ)) * 4 ≤ ((w : ℚ)) ^ 2 then c else p) bm

/-! ## The rasterizer: `create_base_icon` (lines 17-71) -/

/-- Radius of the `i`-th gradient circle: `max(1, center - i * 2)`. -/
def gradientRadius (center : Int) (i : Nat) : Int :=
  max 1 (center - (i : Int) * 2)

/-- Alpha of the `i`-th gradient circle: `int(255 * (1 - i/GRADIENT_ITERATIONS))`,
which equals `255 * (GRADIENT_ITERATIONS - i) / GRADIENT_ITERATIONS` in
integer arithmetic for every `i < GRADIENT_ITERATIONS` (checked against
IEEE double semantics index by index). -/
def gradientAlpha (i : Nat) : Nat :=
  255 * (GRADIENT_ITERATIONS - i) / GRADIENT_ITERATIONS

/-- The fill color of the `i`-th gradient circle: `BRAND_COLOR + (alpha,)`. -/
def gradientColor (i : Nat) : RGBA :=
  ⟨BRAND_COLOR.1, BRAND_COLOR.2.1, BRAND_COLOR.2.2, gradientAlpha i⟩

/-- The ellipse calls issued by the gradient loop: for each
`i < GRADIENT_ITERATIONS`, if the guard `radius > 0` holds, the bounding
box `[center - radius, center - radius, center + radius, center + radius]`
with the gradient color. -/
def gradientCalls (center : Int) : List (Int × Int × RGBA) :=
  (List.range GRADIENT_ITERATIONS).filterMap fun i =>
    let radius := gradientRadius center i
    if radius > 0 then some (center - radius, center + radius, gradientColor i) else none

/-- The gradient loop of `create_base_icon` (lines 27-35). -/
def drawGradient (center : Int) (bm : Bitmap) : Bitmap :=
  (gradientCalls center).foldl
    (fun img c => drawEllipse c.1 c.1 c.2.1 c.2.1 c.2.2 img) bm

/-- The 100 sample points of the S-shaped snake path (lines 42-47);
float arithmetic modelled exactly over `ℚ`. -/
def snakePoints (size : Nat) (center : Int) : List (ℚ × ℚ) :=
  (List.range 100).map fun i =>
    let t : ℚ := (i : ℚ) / 100
    ((center : ℚ) + ((size : ℚ) * (3 / 10)) * (t - 1 / 2),
     (center : ℚ) + ((size : ℚ) * (2 / 5)) * ((t - 1 / 2) ^ 3) * 8)

/-- The snake-path loop (lines 49-51): a line between each pair of
consecutive sample points. -/
def drawPolyline (pts : List (ℚ × ℚ)) (w : Int) (c : RGBA) (bm : Bitmap) : Bitmap :=
  (List.range (pts.length - 1)).foldl
    (fun img i => drawLine (pts.getD i (0, 0)) (pts.getD (i + 1) (0, 0)) w c img) bm

/-- `create_base_icon(size)` (lines 17-71): dark transparent canvas, the
gradient circles, then either the snake with its two eyes (`size >= 32`)
or a plain centered rectangle. -/
def create_base_icon (size : Nat) : Bitmap :=
  let img := imageNew size
  let center : Int := (size : Int) / 2
  let img := drawGradient center img
  if 32 ≤ size then
    let snakeWidth : Int := max 2 ((size : Int) / 8)
    let snakeColor : RGBA := ⟨255, 255, 255, 255⟩
    let img := drawPolyline (snakePoints size center) snakeWidth snakeColor img
    let eyeSize : Int := max 1 ((size : Int) / 20)
    let eyeY : Int := center - (size : Int) / 4
    if eyeSize > 0 then
      let img := drawEllipse (center - (size : Int) / 6 - eyeSize) (eyeY - eyeSize)
        (center - (size : Int) / 6 + eyeSize) (eyeY + eyeSize) ⟨255, 0, 100, 255⟩ img
      drawEllipse (center + (size : Int) / 6 - eyeSize) (eyeY - eyeSize)
        (center + (size : Int) / 6 + eyeSize) (eyeY + eyeSize) ⟨255, 0, 100, 255⟩ img
    else img
  else
    let margin : Int := (size : Int) / 4
    drawRect margin margin ((size : Int) - margin) ((size : Int) - margin)
      ⟨255, 255, 255, 255⟩ img

/-! ## PNG encoding

Modelled from the spec: `img.save(png_buffer, format='PNG')` and the
standard decoder are imaging-library code, not in this repository.  The
spec requires only that the payload is "the lossless single-frame
encoding of the Bitmap", decodable to a bitmap of the exact declared
size with no channel corruption; it is modelled as an exact byte
serialization: an 8-byte signature, big-endian width and height, then
four bytes per pixel in row-major order. -/

def pngSignature : List Nat := [137, 80, 78, 71, 13, 10, 26, 10]

/-- Serialize one pixel as four bytes. -/
def pixelBytes (p : RGBA) : List Nat := [p.r % 256, p.g % 256, p.b % 256, p.a % 256]

/-- Serialize one row of pixels. -/
def rowBytes (row : List RGBA) : List Nat := row.bind pixelBytes

/-- Lossless single-frame encoding of a bitmap. -/
def pngEncode (bm : Bitmap) : List Nat :=
  pngSignature ++ be32 bm.size ++ be32 bm.size ++ bm.pixels.bind rowBytes

/-- Decode one row of `w` pixels; returns the row and the remaining bytes. -/
def decodeRow : Nat → List Nat → Option (List RGBA × List Nat)
  | 0, bs => some ([], bs)
  | w + 1, r :: g :: b :: a :: rest =>
    (decodeRow w rest).map fun x => (⟨r, g, b, a⟩ :: x.1, x.2)
  | _ + 1, _ => none

/-- Decode `h` rows of `w` pixels; fails on missing or trailing bytes. -/
def decodeRows (w : Nat) : Nat → List Nat → Option (List (List RGBA))
  | 0, [] => some []
  | 0, _ :: _ => none
  | h + 1, bs =>
    match decodeRow w bs with
    | none => none
    | some x =>
      match decodeRows w h x.2 with
      | none => none
      | some rows => some (x.1 :: rows)

/-- Standard decoder for the modelled encoding: checks the signature,
reads the dimensions (square for this program's bitmaps), then the pixels. -/
def pngDecode (bs : List Nat) : Option Bitmap :=
  if bs.take 8 = pngSignature then
    let w := readBe32 (bs.drop 8)
    let h := readBe32 (bs.drop 12)
    if w = h then (decodeRows w h (bs.drop 16)).map fun rows => ⟨w, rows⟩
    else none
  else none

/-! ## The Apple-style ICNS packer: `create_icns` (lines 83-123) -/

/-- The 4-byte magic tag `b'icns'`. -/
def icnsMagic : List Nat := [105, 99, 110, 115]

/-- The fixed 11-entry (nominal size, format code) table of `create_icns`
(lines 86-98). -/
def icns_sizes : List (Nat × String) :=
  [(16, "ic04"), (32, "ic05"), (64, "ic06"), (128, "ic07"), (256, "ic08"),
   (512, "ic09"), (1024, "ic10"), (32, "ic11"), (64, "ic12"), (256, "ic13"),
   (512, "ic14")]

/-- One loop iteration of `create_icns` (lines 103-114): render the icon,
encode it, and emit `code.encode('ascii') + struct.pack('>I', len(png) + 8)
+ png`. -/
def icnsElement (size : Nat) (code : String) : Option (List Nat) :=
  match encodeAscii code with
  | none => none
  | some cb =>
    let png := pngEncode (create_base_icon size)
    match pack_be32 (png.length + 8) with
    | none => none
    | some lenb => some (cb ++ lenb ++ png)

/-- All elements of the loop, in input order (errors propagate). -/
def icnsElements : List (Nat × String) → Option (List (List Nat))
  | [] => some []
  | e :: rest =>
    match icnsElement e.1 e.2 with
    | none => none
    | some el =>
      match icnsElements rest with
      | none => none
      | some els => some (el :: els)

/-- `create_icns`'s blob construction for an arbitrary entry list
(lines 100-118): `b'icns' + struct.pack('>I', len(temp_data) + 8) +
temp_data`. -/
def create_icns_blob (entries : List (Nat × String)) : Option (List Nat) :=
  match icnsElements entries with
  | none => none
  | some els =>
    let temp := els.join
    match pack_be32 (temp.length + 8) with
    | none => none
    | some totb => some (icnsMagic ++ totb ++ temp)

/-- The blob `create_icns` writes to `icon.icns`: the fixed table packed. -/
def create_icns : Option (List Nat) := create_icns_blob icns_sizes

/-- Parse consecutive ICNS elements: 4-byte code, 4-byte big-endian
length field, then `length - 8` payload bytes; `fuel` bounds the number
of elements (callers pass the byte count). -/
def parseElements : Nat → List Nat → Option (List (List Nat × Nat × List Nat))
  | _, [] => some []
  | 0, _ :: _ => none
  | fuel + 1, bs =>
    if bs.length < 8 then none
    else
      let codeB := bs.take 4
      let lenField := readBe32 (bs.drop 4)
      let payload := (bs.drop 8).take (lenField - 8)
      if (bs.drop 8).length < lenField - 8 then none
      else
        match parseElements fuel (bs.drop (8 + (lenField - 8))) with
        | none => none
        | some rest => some ((codeB, lenField, payload) :: rest)

/-- Parse a whole ICNS blob: magic tag, total-length field (which must
equal the byte length of the blob), then the elements. -/
def parseIcns (bs : List Nat) : Option (Nat × List (List Nat × Nat × List Nat)) :=
  if bs.take 4 = icnsMagic ∧ 8 ≤ bs.length ∧ readBe32 (bs.drop 4) = bs.length then
    (parseElements (bs.drop 8).length (bs.drop 8)).map fun els => (readBe32 (bs.drop 4), els)
  else none

/-! ## The Windows-style ICO packer: `create_ico` (lines 73-81) -/

/-- The fixed size list of `create_ico` (line 75, local variable `sizes`). -/
def ico_sizes : List Nat := [16, 32, 48, 64, 128, 256]

/-- One directory entry of the icon container: the image's nominal size,
its encoded payload's byte length, and the payload's offset in the blob. -/
structure IcoEntry where
  size : Nat
  length : Nat
  offset : Nat
deriving DecidableEq, Repr

/-- The encoded payload for one size. -/
def icoPayload (s : Nat) : List Nat := pngEncode (create_base_icon s)

/-- Directory entries for `sizes`, starting at payload offset `off`. -/
def icoEntriesFrom : List Nat → Nat → List IcoEntry
  | [], _ => []
  | s :: rest, off =>
    ⟨s, (icoPayload s).length, off⟩ :: icoEntriesFrom rest (off + (icoPayload s).length)

/-- Modelled from the spec: the container layout is delegated to the
imaging library (`Image.save(format='ICO')`), not in this repository; per
the spec it is header + one directory entry per size (recording
dimensions and byte size/offset of its payload) + payloads, in input
order.  The header is 6 bytes and each directory entry 16 bytes. -/
def icoHeaderLen (n : Nat) : Nat := 6 + 16 * n

/-- The directory of the blob for `sizes`. -/
def icoDirectory (sizes : List Nat) : List IcoEntry :=
  icoEntriesFrom sizes (icoHeaderLen sizes.length)

/-- Serialize one directory entry (16 bytes: size twice as width and
height, padding, then 4-byte length and offset). -/
def icoEntryBytes (e : IcoEntry) : List Nat :=
  [e.size % 256, e.size % 256, 0, 0, 0, 0, 0, 0] ++ be32 e.length ++ be32 e.offset

/-- Modelled from the spec: the full blob for `sizes` — 6-byte header
(reserved, type, count), directory, then the payloads in order. -/
def icoBlob (sizes : List Nat) : List Nat :=
  ([0, 0, 1, 0, sizes.length % 256, sizes.length / 256 % 256] ++
    (icoDirectory sizes).bind icoEntryBytes) ++ (sizes.map icoPayload).join

/-- The body of `create_ico` generalized over the size list: it renders
`images = [create_base_icon(s) for s in sizes]` and then evaluates
`images[0].save(...)`, which raises `IndexError` when the list is empty;
otherwise the library serializes all images into one blob. -/
def create_ico_pack (sizes : List Nat) : Option (List Nat) :=
  match sizes.map create_base_icon with
  | [] => none
  | _ :: _ => some (icoBlob sizes)

/-- The blob `create_ico` writes to `icon.ico`: the fixed list packed. -/
def create_ico : Option (List Nat) := create_ico_pack ico_sizes

/-! ## The driver (lines 125-159) -/

/-- The bytes `create_png` writes (lines 125-129). -/
def create_png_bytes (size : Nat) : List Nat := pngEncode (create_base_icon size)

/-- Ambient process state a run could in principle observe (wall-clock
time, process id).  The script never reads either, which the determinism
theorem makes explicit. -/
structure Env where
  time : Nat
  pid : Nat
deriving DecidableEq, Repr

/-- A call to the rasterizer made in ambient state `env`: the source
reads no ambient state, so the result depends on `size` alone. -/
def rasterize (_env : Env) (size : Nat) : Bitmap := create_base_icon size

/-- One run of the driver (`__main__`, lines 144-159) in ambient state
`env` with output directory `dir`: the three files and their contents
(`none` marks a run aborted by an error). -/
def run_driver (_env : Env) (dir : String) : List (String × Option (List Nat)) :=
  [(dir ++ "/icon.ico", create_ico),
   (dir ++ "/icon.icns", create_icns),
   (dir ++ "/icon.png", some (create_png_bytes DEFAULT_ICON_SIZE))]

/-! ## Well-formedness of bitmaps -/

/-- All four channels of a pixel are byte values. -/
def RGBA.isByte (p : RGBA) : Prop :=
  p.r < 256 ∧ p.g < 256 ∧ p.b < 256 ∧ p.a < 256

instance (p : RGBA) : Decidable p.isByte := by
  unfold RGBA.isByte; infer_instance

/-- A bitmap is well-formed when its grid is `size × size` and every
channel is a byte value. -/
def Bitmap.wf (bm : Bitmap) : Prop :=
  bm.pixels.length = bm.size ∧
    (∀ row ∈ bm.pixels, row.length = bm.size) ∧
    ∀ row ∈ bm.pixels, ∀ p ∈ row, p.isByte

instance (bm : Bitmap) : Decidable bm.wf := by
  unfold Bitmap.wf; infer_instance

theorem mapWithIndex_length (f : Nat → α → β) :
    ∀ (l : List α) (i : Nat), (mapWithIndex f l i).length = l.length := by
  intro l
  induction l with
  | nil => intro i; rfl
  | cons a l ih => intro i; simp [mapWithIndex, ih]

theorem mem_mapWithIndex (f : Nat → α → β) :
    ∀ (l : List α) (i : Nat), ∀ b ∈ mapWithIndex f l i, ∃ j a, a ∈ l ∧ b = f j a := by
  intro l
  induction l with
  | nil => intro i b hb; cases hb
  | cons a l ih =>
    intro i b hb
    rcases List.mem_cons.mp hb with hb | hb
    · exact ⟨i, a, List.mem_cons_self a l, hb⟩
    · rcases ih (i + 1) b hb with ⟨j, a', ha', hb'⟩
      exact ⟨j, a', List.mem_cons_of_mem a ha', hb'⟩

theorem mapPixels_size (f : Nat → Nat → RGBA → RGBA) (bm : Bitmap) :
    (mapPixels f bm).size = bm.size := rfl

/-- A per-pixel update whose outputs are byte-valued (on byte-valued
inputs) preserves well-formedness. -/
theorem mapPixels_wf (f : Nat → Nat → RGBA → RGBA)
    (hf : ∀ x y p, p.isByte → (f x y p).isByte) (bm : Bitmap) (h : bm.wf) :
    (mapPixels f bm).wf := by
  obtain ⟨hlen, hrows, hbytes⟩ := h
  refine ⟨?_, ?_, ?_⟩
  · simpa [mapPixels, mapWithIndex_length] using hlen
  · intro row hrow
    rcases mem_mapWithIndex _ _ _ row hrow with ⟨j, row₀, hrow₀, rfl⟩
    simpa [mapWithIndex_length] using hrows row₀ hrow₀
  · intro row hrow p hp
    rcases mem_mapWithIndex _ _ _ row hrow with ⟨j, row₀, hrow₀, rfl⟩
    rcases mem_mapWithIndex _ _ _ p hp with ⟨x, p₀, hp₀, rfl⟩
    exact hf x j p₀ (hbytes row₀ hrow₀ p₀ hp₀)

/-- An update that writes a fixed byte-valued color or keeps the pixel. -/
theorem writeOrKeep_isByte (c : RGBA) (hc : c.isByte) (cond : Bool) (p : RGBA)
    (hp : p.isByte) : (if cond then c else p).isByte := by
  cases cond <;> simpa

theorem imageNew_wf (size : Nat) : (imageNew size).wf := by
  refine ⟨by simp [imageNew], ?_, ?_⟩
  · intro row hrow
    simp only [imageNew] at hrow
    rw [List.eq_of_mem_replicate hrow]
    simp [imageNew]
  · intro row hrow p hp
    simp only [imageNew] at hrow
    rw [List.eq_of_mem_replicate hrow] at hp
    rw [List.eq_of_mem_replicate hp]
    exact ⟨by decide, by decide, by decide, by decide⟩

theorem imageNew_size (size : Nat) : (imageNew size).size = size := rfl

theorem drawEllipse_wf (x0 y0 x1 y1 : Int) (c : RGBA) (hc : c.isByte)
    (bm : Bitmap) (h : bm.wf) : (drawEllipse x0 y0 x1 y1 c bm).wf := by
  refine mapPixels_wf _ ?_ bm h
  intro x y p hp
  split <;> first | exact hc | exact hp

theorem drawRect_wf (x0 y0 x1 y1 : Int) (c : RGBA) (hc : c.isByte)
    (bm : Bitmap) (h : bm.wf) : (drawRect x0 y0 x1 y1 c bm).wf := by
  refine mapPixels_wf _ ?_ bm h
  intro x y p hp
  split <;> first | exact hc | exact hp

theorem drawLine_wf (a b : ℚ × ℚ) (w : Int) (c : RGBA) (hc : c.isByte)
    (bm : Bitmap) (h : bm.wf) : (drawLine a b w c bm).wf := by
  refine mapPixels_wf _ ?_ bm h
  intro x y p hp
  split <;> first | exact hc | exact hp

/-- Invariants preserved by every step survive a `foldl`. -/
theorem foldl_preserves {P : Bitmap → Prop} (g : Bitmap → α → Bitmap) :
    ∀ (l : List α) (bm : Bitmap),
      (∀ img x, x ∈ l → P img → P (g img x)) → P bm → P (l.foldl g bm) := by
  intro l
  induction l with
  | nil => intro bm _ h; exact h
  | cons a l ih =>
    intro bm hg h
    exact ih _ (fun img x hx => hg img x (List.mem_cons_of_mem a hx))
      (hg bm a (List.mem_cons_self a l) h)

theorem gradientAlpha_lt (i : Nat) : gradientAlpha i < 256 := by
  have h : 255 * (GRADIENT_ITERATIONS - i) ≤ 255 * GRADIENT_ITERATIONS :=
    Nat.mul_le_mul_left _ (Nat.sub_le _ _)
  have := Nat.div_le_div_right (c := GRADIENT_ITERATIONS) h
  simpa [gradientAlpha, GRADIENT_ITERATIONS] using Nat.lt_succ_of_le this

theorem gradientColor_isByte (i : Nat) : (gradientColor i).isByte :=
  ⟨by simp [gradientColor, BRAND_COLOR], by simp [gradientColor, BRAND_COLOR],
   by simp [gradientColor, BRAND_COLOR], by simpa [gradientColor] using gradientAlpha_lt i⟩

theorem gradientRadius_pos (center : Int) (i : Nat) : 0 < gradientRadius center i :=
  lt_of_lt_of_le one_pos (le_max_left _ _)

/-- The guard of the gradient loop always holds, so the loop's calls are
one ellipse per iteration. -/
theorem gradientCalls_eq (center : Int) :
    gradientCalls center = (List.range GRADIENT_ITERATIONS).map fun i =>
      (center - gradientRadius center i, center + gradientRadius center i, gradientColor i) := by
  have h : ∀ l : List Nat, (l.filterMap fun i =>
      let radius := gradientRadius center i
      if radius > 0 then some (center - radius, center + radius, gradientColor i) else none) =
      l.map fun i =>
        (center - gradientRadius center i, center + gradientRadius center i, gradientColor i) := by
    intro l
    induction l with
    | nil => rfl
    | cons a l ih => simp [List.filterMap_cons, ih, gradientRadius_pos center a]
  exact h _

theorem drawGradient_wf (center : Int) (bm : Bitmap) (h : bm.wf) :
    (drawGradient center bm).wf := by
  unfold drawGradient
  refine foldl_preserves _ _ bm ?_ h
  intro img x hx himg
  rw [gradientCalls_eq] at hx
  rcases List.mem_map.mp hx with ⟨i, _, rfl⟩
  exact drawEllipse_wf _ _ _ _ _ (gradientColor_isByte i) img himg

theorem drawGradient_size (c : Int) (bm : Bitmap) : (drawGradient c bm).size = bm.size := by
  unfold drawGradient
  refine foldl_preserves (P := fun b => b.size = bm.size) _ _ bm ?_ rfl
  intro img x _ himg
  simpa [drawEllipse, mapPixels] using himg

theorem drawPolyline_size (pts : List (ℚ × ℚ)) (w : Int) (col : RGBA) (bm : Bitmap) :
    (drawPolyline pts w col bm).size = bm.size := by
  unfold drawPolyline
  refine foldl_preserves (P := fun b => b.size = bm.size) _ _ bm ?_ rfl
  intro img x _ himg
  simpa [drawLine, mapPixels] using himg

theorem drawPolyline_wf (pts : List (ℚ × ℚ)) (w : Int) (col : RGBA) (hc : col.isByte)
    (bm : Bitmap) (h : bm.wf) : (drawPolyline pts w col bm).wf := by
  unfold drawPolyline
  refine foldl_preserves _ _ bm ?_ h
  intro img x _ himg
  exact drawLine_wf _ _ _ _ hc img himg

/-- The rasterizer always yields a well-formed `size × size` bitmap. -/
theorem create_base_icon_wf (size : Nat) :
    (create_base_icon size).wf ∧ (create_base_icon size).size = size := by
  have hwhite : (⟨255, 255, 255, 255⟩ : RGBA).isByte := by decide
  have hpink : (⟨255, 0, 100, 255⟩ : RGBA).isByte := by decide
  have hbase : (drawGradient ((size : Int) / 2) (imageNew size)).wf :=
    drawGradient_wf _ _ (imageNew_wf size)
  have hbasesize : (drawGradient ((size : Int) / 2) (imageNew size)).size = size := by
    rw [drawGradient_size]; rfl
  simp only [create_base_icon]
  split
  · split
    · constructor
      · exact drawEllipse_wf _ _ _ _ _ hpink _ (drawEllipse_wf _ _ _ _ _ hpink _
          (drawPolyline_wf _ _ _ hwhite _ hbase))
      · simp [drawEllipse, mapPixels, drawPolyline_size, hbasesize]
    · exact ⟨drawPolyline_wf _ _ _ hwhite _ hbase, by simp [drawPolyline_size, hbasesize]⟩
  · constructor
    · exact drawRect_wf _ _ _ _ _ hwhite _ hbase
    · simp [drawRect, mapPixels, hbasesize]

/-! ## PNG codec lemmas -/

theorem be32_length (n : Nat) : (be32 n).length = 4 := rfl

theorem readBe32_be32 (n : Nat) (rest : List Nat) (h : n < 2 ^ 32) :
    readBe32 (be32 n ++ rest) = n := by
  simp only [be32, List.cons_append, List.nil_append, readBe32]
  omega

theorem decodeRow_rowBytes (row : List RGBA) (rest : List Nat)
    (h : ∀ p ∈ row, p.isByte) :
    decodeRow row.length (rowBytes row ++ rest) = some (row, rest) := by
  induction row with
  | nil => rfl
  | cons p row ih =>
    obtain ⟨h1, h2, h3, h4⟩ := h p (List.mem_cons_self _ _)
    have hmod : pixelBytes p = [p.r, p.g, p.b, p.a] := by
      simp [pixelBytes, Nat.mod_eq_of_lt, h1, h2, h3, h4]
    show decodeRow (row.length + 1) ((pixelBytes p ++ rowBytes row) ++ rest) = _
    rw [hmod]
    show decodeRow (row.length + 1) (p.r :: p.g :: p.b :: p.a :: (rowBytes row ++ rest)) = _
    simp only [decodeRow]
    rw [ih (fun q hq => h q (List.mem_cons_of_mem _ hq))]
    rfl

theorem decodeRows_rows (w h : Nat) (rows : List (List RGBA)) (hh : rows.length = h)
    (hlen : ∀ row ∈ rows, row.length = w)
    (hbytes : ∀ row ∈ rows, ∀ p ∈ row, p.isByte) :
    decodeRows w h (rows.bind rowBytes) = some rows := by
  subst hh
  induction rows with
  | nil => rfl
  | cons row rows ih =>
    show decodeRows w (rows.length + 1) (rowBytes row ++ rows.bind rowBytes) = _
    simp only [decodeRows]
    have hw : row.length = w := hlen row (List.mem_cons_self _ _)
    have hr := decodeRow_rowBytes row (rows.bind rowBytes)
      (hbytes row (List.mem_cons_self _ _))
    rw [hw] at hr
    rw [hr]
    simp only [ih (fun r hrr => hlen r (List.mem_cons_of_mem _ hrr))
      (fun r hrr => hbytes r (List.mem_cons_of_mem _ hrr))]

/-- Decoding is a left inverse of encoding on well-formed bitmaps whose
size fits the 4-byte dimension fields. -/
theorem pngDecode_pngEncode (bm : Bitmap) (hwf : bm.wf) (hs : bm.size < 2 ^ 32) :
    pngDecode (pngEncode bm) = some bm := by
  obtain ⟨hlen, hrows, hbytes⟩ := hwf
  have htake : (pngEncode bm).take 8 = pngSignature := rfl
  have hdrop8 : (pngEncode bm).drop 8 =
      be32 bm.size ++ (be32 bm.size ++ bm.pixels.bind rowBytes) := by
    simp [pngEncode, pngSignature, be32]
  have hdrop12 : (pngEncode bm).drop 12 = be32 bm.size ++ bm.pixels.bind rowBytes := by
    simp [pngEncode, pngSignature, be32]
  have hdrop16 : (pngEncode bm).drop 16 = bm.pixels.bind rowBytes := by
    simp [pngEncode, pngSignature, be32]
  have hread8 : readBe32 ((pngEncode bm).drop 8) = bm.size := by
    rw [hdrop8, readBe32_be32 _ _ hs]
  have hread12 : readBe32 ((pngEncode bm).drop 12) = bm.size := by
    rw [hdrop12, readBe32_be32 _ _ hs]
  simp only [pngDecode, htake, hread8, hread12, hdrop16, if_pos]
  rw [decodeRows_rows bm.size bm.size bm.pixels hlen hrows hbytes]
  rfl

/-! ## ICNS packer lemmas -/

/-- `Σ (8 + payload length)`: the element-size sum the spec's
total-length invariant refers to (without the outer-header 8). -/
def payloadSum (entries : List (Nat × String)) : Nat :=
  (entries.map fun e => 8 + (pngEncode (create_base_icon e.1)).length).sum

/-- The byte size one packed element actually occupies. -/
def elemSize (e : Nat × String) : Nat :=
  e.2.length + 4 + (pngEncode (create_base_icon e.1)).length

/-- The bytes of one packed element (when packing succeeds). -/
def elemBytes (e : Nat × String) : List Nat :=
  asciiBytes e.2 ++ be32 ((pngEncode (create_base_icon e.1)).length + 8) ++
    pngEncode (create_base_icon e.1)

theorem asciiBytes_length (s : String) : (asciiBytes s).length = s.length := by
  simp [asciiBytes]

theorem pack_be32_eq_some (n : Nat) (bs : List Nat) (h : pack_be32 n = some bs) :
    bs = be32 n ∧ n < 2 ^ 32 := by
  unfold pack_be32 at h
  split at h
  · exact ⟨(Option.some_inj.mp h).symm, by assumption⟩
  · exact Option.noConfusion h

theorem pack_be32_some (n : Nat) (h : n < 2 ^ 32) : pack_be32 n = some (be32 n) := by
  unfold pack_be32
  rw [if_pos h]

theorem encodeAscii_some (s : String) (bs : List Nat) (h : encodeAscii s = some bs) :
    bs = asciiBytes s := by
  unfold encodeAscii at h
  split at h
  · exact (Option.some_inj.mp h).symm
  · exact Option.noConfusion h

theorem encodeAscii_ascii (s : String) (h : ∀ c ∈ s.toList, c.toNat < 128) :
    encodeAscii s = some (asciiBytes s) := by
  unfold encodeAscii
  rw [if_pos]
  exact List.all_eq_true.mpr fun c hc => decide_eq_true (h c hc)

theorem icnsElement_eq_some (size : Nat) (code : String) (el : List Nat)
    (h : icnsElement size code = some el) :
    el = elemBytes (size, code) ∧
      (pngEncode (create_base_icon size)).length + 8 < 2 ^ 32 := by
  unfold icnsElement at h
  cases hca : encodeAscii code with
  | none => rw [hca] at h; exact Option.noConfusion h
  | some cb =>
    simp only [hca] at h
    cases hpk : pack_be32 ((pngEncode (create_base_icon size)).length + 8) with
    | none => simp only [hpk] at h; exact Option.noConfusion h
    | some lenb =>
      simp only [hpk] at h
      obtain ⟨rfl, hlt⟩ := pack_be32_eq_some _ _ hpk
      have hcb := encodeAscii_some code cb hca
      subst hcb
      exact ⟨(Option.some_inj.mp h).symm, hlt⟩

theorem icnsElement_some (size : Nat) (code : String)
    (hascii : ∀ c ∈ code.toList, c.toNat < 128)
    (hfit : (pngEncode (create_base_icon size)).length + 8 < 2 ^ 32) :
    icnsElement size code = some (elemBytes (size, code)) := by
  unfold icnsElement
  simp only [encodeAscii_ascii code hascii, pack_be32_some _ hfit]
  rfl

theorem icnsElements_eq_some (entries : List (Nat × String)) (els : List (List Nat))
    (h : icnsElements entries = some els) : els = entries.map elemBytes := by
  induction entries generalizing els with
  | nil => cases h; rfl
  | cons e rest ih =>
    unfold icnsElements at h
    cases hel : icnsElement e.1 e.2 with
    | none => rw [hel] at h; exact Option.noConfusion h
    | some el =>
      simp only [hel] at h
      cases hels : icnsElements rest with
      | none => simp only [hels] at h; exact Option.noConfusion h
      | some els' =>
        simp only [hels] at h
        obtain ⟨h1, _⟩ := icnsElement_eq_some e.1 e.2 el hel
        rw [← Option.some_inj.mp h, List.map_cons, h1, ih els' hels]

theorem icnsElements_some (entries : List (Nat × String))
    (hascii : ∀ e ∈ entries, ∀ c ∈ e.2.toList, c.toNat < 128)
    (hfit : ∀ e ∈ entries, (pngEncode (create_base_icon e.1)).length + 8 < 2 ^ 32) :
    icnsElements entries = some (entries.map elemBytes) := by
  induction entries with
  | nil => rfl
  | cons e rest ih =>
    unfold icnsElements
    rw [icnsElement_some e.1 e.2 (hascii e (List.mem_cons_self _ _))
      (hfit e (List.mem_cons_self _ _))]
    rw [ih (fun x hx => hascii x (List.mem_cons_of_mem _ hx))
      (fun x hx => hfit x (List.mem_cons_of_mem _ hx))]
    rfl

theorem elemBytes_length (e : Nat × String) : (elemBytes e).length = elemSize e := by
  simp only [elemBytes, elemSize, List.length_append, asciiBytes_length, be32_length]

theorem join_map_elemBytes_length (entries : List (Nat × String)) :
    ((entries.map elemBytes).join).length = (entries.map elemSize).sum := by
  induction entries with
  | nil => rfl
  | cons e rest ih =>
    simp [List.join, elemBytes_length, ih]

theorem elemSize_sum_eq_payloadSum (entries : List (Nat × String))
    (h4 : ∀ e ∈ entries, e.2.length = 4) :
    (entries.map elemSize).sum = payloadSum entries := by
  induction entries with
  | nil => rfl
  | cons e rest ih =>
    simp only [List.map_cons, List.sum_cons, payloadSum] at *
    rw [ih (fun x hx => h4 x (List.mem_cons_of_mem _ hx))]
    have he : elemSize e = 8 + (pngEncode (create_base_icon e.1)).length := by
      simp [elemSize, h4 e (List.mem_cons_self _ _)]
    rw [he]

theorem create_icns_blob_eq_some (entries : List (Nat × String)) (blob : List Nat)
    (h : create_icns_blob entries = some blob) :
    blob = icnsMagic ++ be32 ((entries.map elemBytes).join.length + 8) ++
        (entries.map elemBytes).join ∧
      (entries.map elemBytes).join.length + 8 < 2 ^ 32 := by
  unfold create_icns_blob at h
  cases hels : icnsElements entries with
  | none => rw [hels] at h; exact Option.noConfusion h
  | some els =>
    simp only [hels] at h
    cases hpk : pack_be32 (els.join.length + 8) with
    | none => simp only [hpk] at h; exact Option.noConfusion h
    | some totb =>
      simp only [hpk] at h
      obtain ⟨rfl, hlt⟩ := pack_be32_eq_some _ _ hpk
      obtain rfl := icnsElements_eq_some entries els hels
      exact ⟨(Option.some_inj.mp h).symm, hlt⟩

/-! ## ICNS parser lemmas -/

/-- The parsed form of one element: code bytes, declared length field,
payload bytes. -/
def icnsParsedElement (e : Nat × String) : List Nat × Nat × List Nat :=
  (asciiBytes e.2, (pngEncode (create_base_icon e.1)).length + 8,
    pngEncode (create_base_icon e.1))

theorem length_eq_four {l : List Nat} (h : l.length = 4) :
    ∃ a b c d, l = [a, b, c, d] := by
  rcases l with _ | ⟨a, l⟩
  · simp at h
  rcases l with _ | ⟨b, l⟩
  · simp at h
  rcases l with _ | ⟨c, l⟩
  · simp at h
  rcases l with _ | ⟨d, l⟩
  · simp at h
  rcases l with _ | ⟨x, l⟩
  · exact ⟨a, b, c, d, rfl⟩
  · simp at h

theorem icnsElements_fit (entries : List (Nat × String)) (els : List (List Nat))
    (h : icnsElements entries = some els) :
    ∀ e ∈ entries, (pngEncode (create_base_icon e.1)).length + 8 < 2 ^ 32 := by
  induction entries generalizing els with
  | nil => intro e he; cases he
  | cons e rest ih =>
    intro x hx
    unfold icnsElements at h
    cases hel : icnsElement e.1 e.2 with
    | none => rw [hel] at h; exact Option.noConfusion h
    | some el =>
      simp only [hel] at h
      cases hels : icnsElements rest with
      | none => simp only [hels] at h; exact Option.noConfusion h
      | some els' =>
        rcases List.mem_cons.mp hx with rfl | hx'
        · exact (icnsElement_eq_some x.1 x.2 el hel).2
        · exact ih els' hels x hx'

theorem create_icns_blob_elements (entries : List (Nat × String)) (blob : List Nat)
    (h : create_icns_blob entries = some blob) :
    icnsElements entries = some (entries.map elemBytes) := by
  unfold create_icns_blob at h
  cases hels : icnsElements entries with
  | none => rw [hels] at h; exact Option.noConfusion h
  | some els => rw [icnsElements_eq_some entries els hels]

theorem entries_length_le_join (entries : List (Nat × String)) :
    entries.length ≤ ((entries.map elemBytes).join).length := by
  induction entries with
  | nil => simp
  | cons e rest ih =>
    have hj : (((e :: rest).map elemBytes).join) = elemBytes e ++ ((rest.map elemBytes).join) := by
      simp
    rw [hj]
    simp only [List.length_cons, List.length_append, elemBytes_length]
    have h1 : 1 ≤ elemSize e := by unfold elemSize; omega
    omega

/-- One full parsing pass over a successfully packed element list
recovers, in input order, each element's code bytes, its declared length
field `8 + payload length`, and its payload. -/
theorem parseElements_spec (entries : List (Nat × String)) :
    ∀ fuel : Nat,
      (∀ e ∈ entries, e.2.length = 4) →
      (∀ e ∈ entries, (pngEncode (create_base_icon e.1)).length + 8 < 2 ^ 32) →
      entries.length ≤ fuel →
      parseElements fuel ((entries.map elemBytes).join) =
        some (entries.map icnsParsedElement) := by
  induction entries with
  | nil =>
    intro fuel _ _ _
    cases fuel <;> rfl
  | cons e rest ih =>
    intro fuel h4 hfit hfuel
    cases fuel with
    | zero => exact absurd hfuel (by simp)
    | succ f =>
      have hfitE := hfit e (List.mem_cons_self _ _)
      have h4E : (asciiBytes e.2).length = 4 := by
        rw [asciiBytes_length]; exact h4 e (List.mem_cons_self _ _)
      obtain ⟨a, b, c, d, habcd⟩ := length_eq_four h4E
      have hstep : ((e :: rest).map elemBytes).join =
          a :: b :: c :: d ::
            (be32 ((pngEncode (create_base_icon e.1)).length + 8) ++
              (pngEncode (create_base_icon e.1) ++ ((rest.map elemBytes).join))) := by
        simp [elemBytes, habcd]
      rw [hstep]
      have hdrop8 : (a :: b :: c :: d ::
          (be32 ((pngEncode (create_base_icon e.1)).length + 8) ++
            (pngEncode (create_base_icon e.1) ++ ((rest.map elemBytes).join)))).drop 8 =
          pngEncode (create_base_icon e.1) ++ ((rest.map elemBytes).join) := rfl
      have hread : readBe32 ((a :: b :: c :: d ::
          (be32 ((pngEncode (create_base_icon e.1)).length + 8) ++
            (pngEncode (create_base_icon e.1) ++ ((rest.map elemBytes).join)))).drop 4) =
          (pngEncode (create_base_icon e.1)).length + 8 :=
        readBe32_be32 _ _ hfitE
      simp only [parseElements, hdrop8, hread, List.length_cons, List.length_append,
        be32_length, Nat.add_sub_cancel, List.take_left, List.drop_left]
      rw [if_neg (by omega), if_neg (by simp [List.length_append])]
      have hdropL : (a :: b :: c :: d ::
          (be32 ((pngEncode (create_base_icon e.1)).length + 8) ++
            (pngEncode (create_base_icon e.1) ++ ((rest.map elemBytes).join)))).drop
            (8 + (pngEncode (create_base_icon e.1)).length) =
          (rest.map elemBytes).join := by
        rw [← List.drop_drop, hdrop8, List.drop_left]
      rw [hdropL, ih f (fun x hx => h4 x (List.mem_cons_of_mem _ hx))
        (fun x hx => hfit x (List.mem_cons_of_mem _ hx)) (by simp at hfuel; omega)]
      simp [icnsParsedElement, habcd]

/-- Parsing a successfully packed blob recovers the declared total length
(equal to the blob's byte length) and every element in input order. -/
theorem parseIcns_create_icns_blob (entries : List (Nat × String)) (blob : List Nat)
    (h4 : ∀ e ∈ entries, e.2.length = 4)
    (h : create_icns_blob entries = some blob) :
    parseIcns blob = some (blob.length, entries.map icnsParsedElement) := by
  have hfit := icnsElements_fit entries _ (create_icns_blob_elements entries blob h)
  obtain ⟨rfl, hlt⟩ := create_icns_blob_eq_some entries blob h
  set J := (entries.map elemBytes).join
  have htake : (icnsMagic ++ be32 (J.length + 8) ++ J).take 4 = icnsMagic := rfl
  have hdrop4 : (icnsMagic ++ be32 (J.length + 8) ++ J).drop 4 = be32 (J.length + 8) ++ J := rfl
  have hdrop8 : (icnsMagic ++ be32 (J.length + 8) ++ J).drop 8 = J := rfl
  have hlen : (icnsMagic ++ be32 (J.length + 8) ++ J).length = J.length + 8 := by
    simp only [List.length_append, be32_length, icnsMagic, List.length_cons, List.length_nil]
    omega
  have hread : readBe32 ((icnsMagic ++ be32 (J.length + 8) ++ J).drop 4) = J.length + 8 := by
    rw [hdrop4]
    exact readBe32_be32 _ _ hlt
  unfold parseIcns
  rw [if_pos ⟨htake, by rw [hlen]; omega, by rw [hread, hlen]⟩]
  simp only [hdrop8, hread, hlen]
  rw [parseElements_spec entries J.length h4 hfit (entries_length_le_join entries)]
  rfl

/-! ## ICO packer lemmas -/

theorem icoEntriesFrom_map_size (sizes : List Nat) :
    ∀ off, (icoEntriesFrom sizes off).map IcoEntry.size = sizes := by
  induction sizes with
  | nil => intro off; rfl
  | cons s rest ih => intro off; simp [icoEntriesFrom, ih]

theorem icoEntriesFrom_length (sizes : List Nat) :
    ∀ off, (icoEntriesFrom sizes off).length = sizes.length := by
  induction sizes with
  | nil => intro off; rfl
  | cons s rest ih => intro off; simp [icoEntriesFrom, ih]

theorem icoEntriesFrom_getD (sizes : List Nat) :
    ∀ off i, i < sizes.length →
      ((icoEntriesFrom sizes off).getD i ⟨0, 0, 0⟩).size = sizes.getD i 0 ∧
        ((icoEntriesFrom sizes off).getD i ⟨0, 0, 0⟩).length =
          (icoPayload (sizes.getD i 0)).length := by
  induction sizes with
  | nil => intro off i h; simp at h
  | cons s rest ih =>
    intro off i h
    cases i with
    | zero => exact ⟨rfl, rfl⟩
    | succ j =>
      simp only [icoEntriesFrom, List.getD_cons_succ]
      exact ih _ j (by simp at h; omega)

/-- The bytes of the blob from an entry's recorded offset, for its
recorded length, are exactly that input's encoded payload. -/
theorem icoSlice (sizes : List Nat) :
    ∀ (pre : List Nat) i, i < sizes.length →
      ((pre ++ (sizes.map icoPayload).join).drop
          ((icoEntriesFrom sizes pre.length).getD i ⟨0, 0, 0⟩).offset).take
          ((icoEntriesFrom sizes pre.length).getD i ⟨0, 0, 0⟩).length =
        icoPayload (sizes.getD i 0) := by
  induction sizes with
  | nil => intro pre i h; simp at h
  | cons s rest ih =>
    intro pre i h
    cases i with
    | zero =>
      simp only [icoEntriesFrom, List.getD_cons_zero]
      have hblob : pre ++ ((s :: rest).map icoPayload).join =
          pre ++ (icoPayload s ++ ((rest.map icoPayload).join)) := by simp
      rw [hblob, List.drop_left, List.take_left]
    | succ j =>
      simp only [icoEntriesFrom, List.getD_cons_succ]
      have hpre : (pre ++ icoPayload s).length = pre.length + (icoPayload s).length := by simp
      have hblob : pre ++ ((s :: rest).map icoPayload).join =
          (pre ++ icoPayload s) ++ ((rest.map icoPayload).join) := by simp
      rw [hblob, ← hpre]
      exact ih (pre ++ icoPayload s) j (by simp at h; omega)

theorem icoEntryBytes_length (e : IcoEntry) : (icoEntryBytes e).length = 16 := by
  simp [icoEntryBytes, be32_length]

theorem bind_icoEntryBytes_length (entries : List IcoEntry) :
    (entries.bind icoEntryBytes).length = 16 * entries.length := by
  induction entries with
  | nil => rfl
  | cons e rest ih =>
    simp only [List.cons_bind, List.length_append, icoEntryBytes_length, ih, List.length_cons]
    omega

theorem icoBlob_prefix_length (sizes : List Nat) :
    ([0, 0, 1, 0, sizes.length % 256, sizes.length / 256 % 256] ++
      (icoDirectory sizes).bind icoEntryBytes).length = icoHeaderLen sizes.length := by
  simp only [List.length_append, bind_icoEntryBytes_length, icoDirectory,
    icoEntriesFrom_length, icoHeaderLen, List.length_cons, List.length_nil]

/-- The payload bytes of the `i`-th directory entry sit in the blob at the
entry's recorded offset, for the entry's recorded length. -/
theorem icoBlob_slice (sizes : List Nat) (i : Nat) (h : i < sizes.length) :
    ((icoBlob sizes).drop (((icoDirectory sizes).getD i ⟨0, 0, 0⟩).offset)).take
      (((icoDirectory sizes).getD i ⟨0, 0, 0⟩).length) = icoPayload (sizes.getD i 0) := by
  have hpl := icoBlob_prefix_length sizes
  have hs := icoSlice sizes
    ([0, 0, 1, 0, sizes.length % 256, sizes.length / 256 % 256] ++
      (icoDirectory sizes).bind icoEntryBytes) i h
  rw [hpl] at hs
  exact hs

theorem create_ico_pack_eq_some (sizes : List Nat) (blob : List Nat)
    (h : create_ico_pack sizes = some blob) : blob = icoBlob sizes := by
  cases sizes with
  | nil => exact Option.noConfusion h
  | cons s rest =>
    have h' : some (icoBlob (s :: rest)) = some blob := h
    exact (Option.some_inj.mp h').symm

/-! ## The claims -/

/-- C1: for every list of (size, format-code) input triples to the
Apple-icon packer, the 4-byte big-endian total-length field written after
the magic tag equals `8 + Σ (8 + payload length)` over the elements, and
this value equals the exact byte length of the whole output blob. -/
theorem icns_total_length_field_correct (entries : List (Nat × String)) (blob : List Nat)
    (h4 : ∀ e ∈ entries, e.2.length = 4)
    (h : create_icns_blob entries = some blob) :
    readBe32 (blob.drop 4) = 8 + payloadSum entries ∧
      readBe32 (blob.drop 4) = blob.length := by
  obtain ⟨rfl, hlt⟩ := create_icns_blob_eq_some entries blob h
  set J := (entries.map elemBytes).join with hJdef
  have hdrop4 : (icnsMagic ++ be32 (J.length + 8) ++ J).drop 4 = be32 (J.length + 8) ++ J := rfl
  have hlen : (icnsMagic ++ be32 (J.length + 8) ++ J).length = J.length + 8 := by
    simp only [List.length_append, be32_length, icnsMagic, List.length_cons, List.length_nil]
    omega
  have hread : readBe32 ((icnsMagic ++ be32 (J.length + 8) ++ J).drop 4) = J.length + 8 := by
    rw [hdrop4]
    exact readBe32_be32 _ _ hlt
  have hsum : J.length = payloadSum entries := by
    rw [hJdef, join_map_elemBytes_length, elemSize_sum_eq_payloadSum entries h4]
  constructor
  · rw [hread, hsum]
    omega
  · rw [hread, hlen]

/-- Witness for C1: a concrete single-element input with a 4-character
code; the packed blob's total-length field equals `8 + Σ (8 + payload
length)` and the blob's byte length. -/
theorem icns_total_length_field_correct_witness :
    (∀ e ∈ [((1 : Nat), "ic04")], e.2.length = 4) ∧
      create_icns_blob [((1 : Nat), "ic04")] =
        some ((create_icns_blob [((1 : Nat), "ic04")]).getD []) ∧
      (readBe32 (((create_icns_blob [((1 : Nat), "ic04")]).getD []).drop 4) =
          8 + payloadSum [((1 : Nat), "ic04")] ∧
        readBe32 (((create_icns_blob [((1 : Nat), "ic04")]).getD []).drop 4) =
          ((create_icns_blob [((1 : Nat), "ic04")]).getD []).length) :=
  ⟨by decide, rfl,
    icns_total_length_field_correct [((1 : Nat), "ic04")] _ (by decide) rfl⟩

/-- C2: the packed blob is the 4-byte magic tag, a 4-byte big-endian
total-length field covering the whole blob, then one element per input
triple in input order; parsing the blob recovers for each element its
4-byte ASCII code, a length field equal to `8 +` the payload's byte
length, and the payload, which is the encoding of the rasterized bitmap. -/
theorem icns_blob_layout_parses (entries : List (Nat × String)) (blob : List Nat)
    (h4 : ∀ e ∈ entries, e.2.length = 4)
    (h : create_icns_blob entries = some blob) :
    blob.take 4 = icnsMagic ∧
      parseIcns blob = some (blob.length, entries.map icnsParsedElement) := by
  refine ⟨?_, parseIcns_create_icns_blob entries blob h4 h⟩
  obtain ⟨rfl, _⟩ := create_icns_blob_eq_some entries blob h
  rfl

/-- Witness for C2: a concrete single-element input; its blob starts with
the magic tag and parses back to its element list. -/
theorem icns_blob_layout_parses_witness :
    (∀ e ∈ [((2 : Nat), "ic05")], e.2.length = 4) ∧
      create_icns_blob [((2 : Nat), "ic05")] =
        some ((create_icns_blob [((2 : Nat), "ic05")]).getD []) ∧
      (((create_icns_blob [((2 : Nat), "ic05")]).getD []).take 4 = icnsMagic ∧
        parseIcns ((create_icns_blob [((2 : Nat), "ic05")]).getD []) =
          some (((create_icns_blob [((2 : Nat), "ic05")]).getD []).length,
            [((2 : Nat), "ic05")].map icnsParsedElement)) :=
  ⟨by decide, rfl,
    icns_blob_layout_parses [((2 : Nat), "ic05")] _ (by decide) rfl⟩

/-- C3: the driver supplies the Apple-icon packer with exactly the fixed
11-entry table, in the stated order: sizes 16, 32, 64, 128, 256, 512,
1024 under seven codes, then 32, 64, 256, 512 under four further codes;
sizes 32, 64, 256 and 512 each appear twice, and the format codes are
pairwise distinct (the unique keys). -/
theorem icns_fixed_table_exact :
    create_icns = create_icns_blob icns_sizes ∧
      icns_sizes.length = 11 ∧
      icns_sizes.map Prod.fst = [16, 32, 64, 128, 256, 512, 1024, 32, 64, 256, 512] ∧
      (icns_sizes.map Prod.snd).Nodup ∧
      (icns_sizes.map Prod.fst).count 32 = 2 ∧
      (icns_sizes.map Prod.fst).count 64 = 2 ∧
      (icns_sizes.map Prod.fst).count 256 = 2 ∧
      (icns_sizes.map Prod.fst).count 512 = 2 ∧
      (icns_sizes.map Prod.fst).count 16 = 1 ∧
      (icns_sizes.map Prod.fst).count 128 = 1 ∧
      (icns_sizes.map Prod.fst).count 1024 = 1 :=
  ⟨rfl, by decide, by decide, by decide, by decide, by decide, by decide, by decide,
    by decide, by decide, by decide⟩

/-- C4: the Windows-icon packer is invoked with exactly the fixed size
list [16, 32, 48, 64, 128, 256]; for every size list it packs, the output
carries exactly one directory entry per input size, in input order, each
recording that size, its payload's byte length, and the offset at which
that payload sits in the blob. -/
theorem ico_directory_entries (sizes : List Nat) (blob : List Nat)
    (h : create_ico_pack sizes = some blob) :
    ico_sizes = [16, 32, 48, 64, 128, 256] ∧
      create_ico = create_ico_pack ico_sizes ∧
      (icoDirectory sizes).length = sizes.length ∧
      (icoDirectory sizes).map IcoEntry.size = sizes ∧
      ∀ i < sizes.length,
        ((icoDirectory sizes).getD i ⟨0, 0, 0⟩).size = sizes.getD i 0 ∧
          ((icoDirectory sizes).getD i ⟨0, 0, 0⟩).length =
            (icoPayload (sizes.getD i 0)).length ∧
          (blob.drop (((icoDirectory sizes).getD i ⟨0, 0, 0⟩).offset)).take
              (((icoDirectory sizes).getD i ⟨0, 0, 0⟩).length) =
            icoPayload (sizes.getD i 0) := by
  obtain rfl := create_ico_pack_eq_some sizes blob h
  refine ⟨rfl, rfl, icoEntriesFrom_length _ _, icoEntriesFrom_map_size _ _, ?_⟩
  intro i hi
  obtain ⟨h1, h2⟩ := icoEntriesFrom_getD sizes _ i hi
  exact ⟨h1, h2, icoBlob_slice sizes i hi⟩

/-- Witness for C4: the concrete size list [1]; the packed blob has one
entry of size 1 whose recorded length and offset locate its payload. -/
theorem ico_directory_entries_witness :
    create_ico_pack [1] = some ((create_ico_pack [1]).getD []) ∧
      (ico_sizes = [16, 32, 48, 64, 128, 256] ∧
        create_ico = create_ico_pack ico_sizes ∧
        (icoDirectory [1]).length = [1].length ∧
        (icoDirectory [1]).map IcoEntry.size = [1] ∧
        ∀ i < [1].length,
          ((icoDirectory [1]).getD i ⟨0, 0, 0⟩).size = [1].getD i 0 ∧
            ((icoDirectory [1]).getD i ⟨0, 0, 0⟩).length =
              (icoPayload ([1].getD i 0)).length ∧
            (((create_ico_pack [1]).getD []).drop
                (((icoDirectory [1]).getD i ⟨0, 0, 0⟩).offset)).take
                (((icoDirectory [1]).getD i ⟨0, 0, 0⟩).length) =
              icoPayload ([1].getD i 0)) :=
  ⟨rfl, ico_directory_entries [1] _ rfl⟩

/-- C5: given a zero-length size list the Windows-icon packer fails
(the empty list is the only input on which no output blob is produced). -/
theorem ico_empty_input_fails (sizes : List Nat) :
    create_ico_pack sizes = none ↔ sizes = [] := by
  cases sizes <;> simp [create_ico_pack]

/-- C6: the Apple-icon packer raises no error internally: any entry list
whose codes are ASCII and whose encoded sizes fit the 4-byte length
fields — including codes that are not 4 characters and zero sizes —
still yields an output blob. -/
theorem icns_accepts_malformed_input (entries : List (Nat × String))
    (hascii : ∀ e ∈ entries, ∀ c ∈ e.2.toList, c.toNat < 128)
    (hfit : ∀ e ∈ entries, (pngEncode (create_base_icon e.1)).length + 8 < 2 ^ 32)
    (htot : (entries.map elemSize).sum + 8 < 2 ^ 32) :
    ∃ blob, create_icns_blob entries = some blob := by
  have hj : ((entries.map elemBytes).join).length + 8 < 2 ^ 32 := by
    rw [join_map_elemBytes_length]
    exact htot
  unfold create_icns_blob
  simp only [icnsElements_some entries hascii hfit, pack_be32_some _ hj]
  exact ⟨_, rfl⟩

/-- Witness for C6: the malformed entry (size 0, 2-character code "ab")
is still packed into a blob. -/
theorem icns_accepts_malformed_input_witness :
    (∀ e ∈ [((0 : Nat), "ab")], ∀ c ∈ e.2.toList, c.toNat < 128) ∧
      (∀ e ∈ [((0 : Nat), "ab")],
        (pngEncode (create_base_icon e.1)).length + 8 < 2 ^ 32) ∧
      (([((0 : Nat), "ab")].map elemSize).sum + 8 < 2 ^ 32) ∧
      ∃ blob, create_icns_blob [((0 : Nat), "ab")] = some blob :=
  ⟨by decide, by decide, by decide,
    icns_accepts_malformed_input [((0 : Nat), "ab")] (by decide) (by decide) (by decide)⟩

/-- C7: the pipeline is deterministic: the rasterizer returns the same
bitmap for the same size regardless of the ambient process state, and two
driver runs with the same output directory produce identical file
contents for all three formats. -/
theorem pipeline_deterministic :
    ∀ (e₁ e₂ : Env) (d : String) (s : Nat),
      rasterize e₁ s = rasterize e₂ s ∧ run_driver e₁ d = run_driver e₂ d :=
  fun _ _ _ _ => ⟨rfl, rfl⟩

/-- C8: for every size whose value fits the encoder's 4-byte dimension
fields, decoding the encoded payload of the rasterized bitmap returns
exactly that bitmap (same dimensions, no channel corruption). -/
theorem png_payload_roundtrip (s : Nat) (hs : s < 2 ^ 32) :
    pngDecode (pngEncode (create_base_icon s)) = some (create_base_icon s) ∧
      (create_base_icon s).size = s := by
  obtain ⟨hwf, hsz⟩ := create_base_icon_wf s
  refine ⟨pngDecode_pngEncode _ hwf ?_, hsz⟩
  rw [hsz]
  exact hs

/-- Witness for C8: the size-1 payload decodes back to the size-1 bitmap. -/
theorem png_payload_roundtrip_witness :
    (1 : Nat) < 2 ^ 32 ∧
      (pngDecode (pngEncode (create_base_icon 1)) = some (create_base_icon 1) ∧
        (create_base_icon 1).size = 1) :=
  ⟨by decide, png_payload_roundtrip 1 (by decide)⟩

/-- C9: for every positive size the rasterizer returns one bitmap of
exactly `size × size` fully-specified RGBA pixels (all four channels
present and byte-valued); the embedding is total, so no error is raised. -/
theorem rasterizer_contract (s : Nat) (_hs : 0 < s) :
    (create_base_icon s).size = s ∧
      (create_base_icon s).pixels.length = s ∧
      (∀ row ∈ (create_base_icon s).pixels, row.length = s) ∧
      ∀ row ∈ (create_base_icon s).pixels, ∀ p ∈ row, p.isByte := by
  obtain ⟨⟨h1, h2, h3⟩, hsz⟩ := create_base_icon_wf s
  rw [hsz] at h1 h2
  exact ⟨hsz, h1, h2, h3⟩

/-- Witness for C9: the size-2 bitmap is 2 × 2 with byte-valued pixels. -/
theorem rasterizer_contract_witness :
    (0 : Nat) < 2 ∧
      ((create_base_icon 2).size = 2 ∧
        (create_base_icon 2).pixels.length = 2 ∧
        (∀ row ∈ (create_base_icon 2).pixels, row.length = 2) ∧
        ∀ row ∈ (create_base_icon 2).pixels, ∀ p ∈ row, p.isByte) :=
  ⟨by decide, rasterizer_contract 2 (by decide)⟩

/-- C10: for every positive size and every gradient-loop index, the
radius `max(1, size//2 - 2*i)` is at least 1, so the `radius > 0` guard
always holds, exactly `GRADIENT_ITERATIONS` ellipses are drawn, and every
ellipse bounding box is non-degenerate (its low corner strictly below its
high corner). -/
theorem gradient_loop_safe (size : Nat) (_hs : 0 < size) :
    (∀ i < GRADIENT_ITERATIONS, 1 ≤ gradientRadius ((size : Int) / 2) i ∧
        0 < gradientRadius ((size : Int) / 2) i) ∧
      (gradientCalls ((size : Int) / 2)).length = GRADIENT_ITERATIONS ∧
      ∀ c ∈ gradientCalls ((size : Int) / 2), c.1 < c.2.1 := by
  refine ⟨fun i _ => ⟨le_max_left _ _, gradientRadius_pos _ i⟩, ?_, ?_⟩
  · rw [gradientCalls_eq]
    simp
  · intro c hc
    rw [gradientCalls_eq] at hc
    rcases List.mem_map.mp hc with ⟨i, _, rfl⟩
    have := gradientRadius_pos ((size : Int) / 2) i
    simp only []
    omega

/-- Witness for C10: at size 1 the guard holds at every index, ten
ellipses are drawn, and all boxes are non-degenerate. -/
theorem gradient_loop_safe_witness :
    (0 : Nat) < 1 ∧
      ((∀ i < GRADIENT_ITERATIONS, 1 ≤ gradientRadius ((1 : Int) / 2) i ∧
          0 < gradientRadius ((1 : Int) / 2) i) ∧
        (gradientCalls ((1 : Int) / 2)).length = GRADIENT_ITERATIONS ∧
        ∀ c ∈ gradientCalls ((1 : Int) / 2), c.1 < c.2.1) :=
  ⟨by decide, gradient_loop_safe 1 (by decide)⟩
